import Mathlib

/-!
Verification of the DAG-dependencies scheduler demonstrated by the
`ngcm-tutorial` notebooks (`Part-4/examples/DAG Dependencies.ipynb` and
`Part-4/exercises/Remote Iteration.ipynb`).

The notebook code that lives in the repository (`random_dag`,
`validate_tree`, `load_data`) is embedded directly.  The scheduler that
executes the graph (ipyparallel's dependency handling, networkx's
`topological_sort` / `is_directed_acyclic_graph` internals) is an external
collaborator; where a claim is about that machinery it is modelled from
the spec and marked as such in the doc comment of the definition.
-/

/-- Task lifecycle states, from the spec's `TaskState` enumeration. -/
inductive TState where
  | Pending
  | Ready
  | Running
  | Succeeded
  | Failed
  | Unreachable
deriving DecidableEq, Repr

/-- Dependency policies, from the spec's `DependencyPolicy` enumeration. -/
inductive Policy where
  | ALL_SUCCESS
  | ANY_SUCCESS
  | ALL_DONE
  | ANY_DONE
deriving DecidableEq, Repr

/-- True exactly on `Succeeded`. -/
def isSucceededB : TState → Bool
  | TState.Succeeded => true
  | _ => false

/-- True on the terminal states `Succeeded`, `Failed`, `Unreachable`. -/
def isTerminalB : TState → Bool
  | TState.Succeeded => true
  | TState.Failed => true
  | TState.Unreachable => true
  | _ => false

/-- True on `Failed` and `Unreachable`. -/
def isFailedOrUnreachableB : TState → Bool
  | TState.Failed => true
  | TState.Unreachable => true
  | _ => false

/-- Direct predecessors of `b`: sources of edges pointing at `b`
(`G.predecessors(node)` in the notebook). -/
def predsOf (es : List (Nat × Nat)) (b : Nat) : List Nat :=
  (es.filter (fun e => e.2 == b)).map (fun e => e.1)

/-- Direct successors of `a`: targets of edges leaving `a`
(`G.successors(node)` / the dependents of a node). -/
def succsOf (es : List (Nat × Nat)) (a : Nat) : List Nat :=
  (es.filter (fun e => e.1 == a)).map (fun e => e.2)

/-- Bounded reachability: `reachN es f a b` holds when the edge list `es`
contains a directed walk from `a` to `b` of length between 1 and `f`. -/
def reachN (es : List (Nat × Nat)) : Nat → Nat → Nat → Bool
  | 0, _, _ => false
  | f + 1, a, b =>
      es.any (fun e => e.1 == a && (e.2 == b || reachN es f e.2 b))

/-- Walk checker: `isWalkList es a l b` holds when `a :: l ++ [b]` is a
directed walk through consecutive edges of `es`. -/
def isWalkList (es : List (Nat × Nat)) : Nat → List Nat → Nat → Bool
  | a, [], b => (a, b) ∈ es
  | a, x :: l, b => decide ((a, x) ∈ es) && isWalkList es x l b

/-- Mutable directed graph with explicit node and edge lists, embedding the
`networkx.DiGraph` object manipulated by `random_dag`. -/
structure Graph where
  nodes : List Nat
  edges : List (Nat × Nat)
deriving DecidableEq, Repr

/-- Embeds `G.add_node(i)`: inserts a node unless it is already present. -/
def addNode (G : Graph) (i : Nat) : Graph :=
  if i ∈ G.nodes then G else { G with nodes := G.nodes ++ [i] }

/-- Embeds `G.add_edge(a,b)`: inserts missing endpoints as nodes and the
edge unless already present (networkx semantics: re-adding an existing
edge is a no-op). -/
def addEdge (G : Graph) (a b : Nat) : Graph :=
  let G1 := addNode (addNode G a) b
  if (a, b) ∈ G1.edges then G1 else { G1 with edges := G1.edges ++ [(a, b)] }

/-- Embeds `G.remove_edge(a,b)`. -/
def removeEdge (G : Graph) (a b : Nat) : Graph :=
  { G with edges := G.edges.erase (a, b) }

/-- Embeds `nx.is_directed_acyclic_graph(G)`: no node lies on a directed
cycle; cycles are searched up to length `G.nodes.length`, which suffices
because a shortest closed walk never repeats an intermediate vertex. -/
def isDagG (G : Graph) : Bool :=
  G.nodes.all (fun v => ! reachN G.edges G.nodes.length v v)

/-- Acyclicity check for a graph given as node count plus edge list. -/
def isDagB (n : Nat) (es : List (Nat × Nat)) : Bool :=
  (List.range n).all (fun v => ! reachN es n v v)

/-- Embeds the inner `b = a; while b == a: b = randint(0, nodes-1)` loop of
`random_dag`: consume pseudo-random draws until one differs from `a`,
returning that draw and the unconsumed remainder of the stream. -/
def drawUntilNe (a : Nat) : List Nat → Option (Nat × List Nat)
  | [] => none
  | x :: rest => if x = a then drawUntilNe a rest else some (x, rest)

/-- Embeds the `while edges > 0` loop body of `random_dag`.  The stream of
`randint(0, nodes-1)` results is made explicit as a list; `fuel` bounds the
number of loop iterations (the Python loop may iterate more than `edges`
times when candidate edges are rejected), and `none` is returned when fuel
or the stream runs out before the loop would exit. -/
def randomDagLoop : Nat → Nat → Graph → List Nat → Option Graph
  | _, 0, G, _ => some G
  | 0, _, _, _ => none
  | fuel + 1, edges + 1, G, stream =>
      match stream with
      | [] => none
      | a :: rest =>
          match drawUntilNe a rest with
          | none => none
          | some (b, rest2) =>
              let G2 := addEdge G a b
              if isDagG G2 then randomDagLoop fuel edges G2 rest2
              else randomDagLoop fuel (edges + 1) (removeEdge G2 a b) rest2

/-- Embeds `random_dag(nodes, edges)` with the random source made explicit:
first `G.add_node(i) for i in range(nodes)`, then the edge-adding loop. -/
def random_dag (nodes edges : Nat) (fuel : Nat) (stream : List Nat) :
    Option Graph :=
  randomDagLoop fuel edges
    { nodes := List.range nodes, edges := [] } stream

/-- Embeds `validate_tree(G, results)` from the notebook: for every node and
every predecessor, assert that the node started strictly after the
predecessor completed.  `results` maps a node to its
`(metadata.started, metadata.completed)` pair; the function returns `false`
exactly when the Python original raises `AssertionError`. -/
def validate_tree (nodes : List Nat) (es : List (Nat × Nat))
    (results : Nat → Nat × Nat) : Bool :=
  nodes.all fun node =>
    (predsOf es node).all fun parent =>
      (results parent).2 < (results node).1

/-- Embeds Python's `range(start, stop, step)` for a positive `step`, with
explicit fuel (`(stop - start).toNat` is always enough once `1 ≤ step`). -/
def pyRangeAux : Nat → Int → Int → Int → List Int
  | 0, _, _, _ => []
  | f + 1, start, stop, step =>
      if start < stop then start :: pyRangeAux f (start + step) stop step
      else []

/-- Python `range(start, stop, step)` as a list, for positive `step`. -/
def pyRange (start stop step : Int) : List Int :=
  pyRangeAux (stop - start).toNat start stop step

/-- Embeds `load_data(arg)` from `Remote Iteration.ipynb`: binds
`data = range(4-arg, 4-arg + 4*(arg+1)**2, arg+1)` and returns the string
naming the bound variable.  The bound dataset is returned alongside. -/
def load_data (arg : Int) : String × List Int :=
  let s : Int := 4 - arg
  let step : Int := arg + 1
  ("data", pyRange s (s + 4 * step ^ 2) step)

/-- Modelled from the spec: the Dispatcher/Outcome Propagator that drives a
run to completion lives in ipyparallel, not in the repository.  Final state
of a node under a uniform `ALL_SUCCESS` policy when node `failed` fails:
a node is `Unreachable` exactly when some predecessor is failed or
unreachable, `Succeeded` otherwise.  Graphs are assumed topologically
indexed (every edge goes from a lower to a higher id, as in the demo
diamond), so recursion fuel `n` suffices for node `n`. -/
def fsAux (es : List (Nat × Nat)) (failed : Nat) : Nat → Nat → TState
  | 0, n => if n = failed then TState.Failed else TState.Succeeded
  | f + 1, n =>
      if n = failed then TState.Failed
      else if (predsOf es n).any
          (fun p => isFailedOrUnreachableB (fsAux es failed f p)) then
        TState.Unreachable
      else TState.Succeeded

/-- Final state of node `n` after a completed run in which `failed` failed
(see `fsAux`). -/
def finalState (es : List (Nat × Nat)) (failed : Nat) (n : Nat) : TState :=
  fsAux es failed n n

/-- Modelled from the spec: bounded test that node `n` is a strict
descendant of `f` (a nonempty dependency path `f` to `n` exists), for
topologically indexed edge lists. -/
def reachFromAux (es : List (Nat × Nat)) (f : Nat) : Nat → Nat → Bool
  | 0, _ => false
  | g + 1, n => (predsOf es n).any (fun p => p == f || reachFromAux es f g p)

/-- Strict-descendant test for topologically indexed edge lists (see
`reachFromAux`). -/
def reachesFrom (es : List (Nat × Nat)) (f n : Nat) : Bool :=
  reachFromAux es f n n

/-- The 5-node demo DAG of the notebook: edges 0 to 1, 0 to 2, 1 to 3,
2 to 3, 1 to 4. -/
def diamond : List (Nat × Nat) := [(0, 1), (0, 2), (1, 3), (2, 3), (1, 4)]

/-- Modelled from the spec: the Outcome Propagator's treatment of one
direct successor `s` of a completed node `c` (spec section 4.5).  A still
pending successor becomes `Unreachable` under `ALL_SUCCESS` when `c`
failed or is unreachable, `Ready` when its policy is satisfied, and
otherwise stays `Pending`; a successor past `Pending` is untouched. -/
def resolveNode (es : List (Nat × Nat)) (pol : Nat → Policy) (c : Nat)
    (st : Nat → TState) (s : Nat) : TState :=
  if st s = TState.Pending then
    match pol s with
    | Policy.ALL_SUCCESS =>
        if isFailedOrUnreachableB (st c) then TState.Unreachable
        else if (predsOf es s).all (fun p => isSucceededB (st p)) then
          TState.Ready
        else TState.Pending
    | Policy.ANY_SUCCESS =>
        if (predsOf es s).any (fun p => isSucceededB (st p)) then TState.Ready
        else TState.Pending
    | Policy.ALL_DONE =>
        if (predsOf es s).all (fun p => isTerminalB (st p)) then TState.Ready
        else TState.Pending
    | Policy.ANY_DONE =>
        if (predsOf es s).any (fun p => isTerminalB (st p)) then TState.Ready
        else TState.Pending
  else st s

/-- Point update of a task-state assignment. -/
def updState (st : Nat → TState) (v : Nat) (t : TState) : Nat → TState :=
  fun x => if x = v then t else st x

/-- One propagation step: rewrite successor `s` according to
`resolveNode`. -/
def resolveStep (es : List (Nat × Nat)) (pol : Nat → Policy) (c : Nat)
    (st : Nat → TState) (s : Nat) : Nat → TState :=
  updState st s (resolveNode es pol c st s)

/-- Modelled from the spec: `resolve(completedNode)` inspects every direct
successor of `c` in turn and applies the policy rules (spec section
4.5). -/
def resolve (es : List (Nat × Nat)) (pol : Nat → Policy) (c : Nat)
    (st : Nat → TState) : Nat → TState :=
  (succsOf es c).foldl (resolveStep es pol c) st

/-- Fixture for the C7 counterexample: edges 0 to 1, 0 to 2, 2 to 1. -/
def cexEdges : List (Nat × Nat) := [(0, 1), (0, 2), (2, 1)]

/-- Fixture for the C7 counterexample: node 1 uses `ALL_DONE`, the rest
`ALL_SUCCESS`. -/
def cexPol : Nat → Policy := fun n =>
  if n = 1 then Policy.ALL_DONE else Policy.ALL_SUCCESS

/-- Fixture: node 0 has completed with `Failed`, everything else is
`Pending`. -/
def cexSt : Nat → TState := fun n =>
  if n = 0 then TState.Failed else TState.Pending

/-- Modelled from the spec: `v` still has an incoming edge from a
not-yet-emitted node in `rem` (the in-degree test of Kahn's algorithm,
spec section 4.2). -/
def hasIncomingFrom (es : List (Nat × Nat)) (rem : List Nat) (v : Nat) : Bool :=
  es.any (fun e => e.2 == v && decide (e.1 ∈ rem))

/-- Modelled from the spec: first remaining node with no incoming edge
from the remaining set (deterministic tie-break by position, spec section
4.2). -/
def pickSource (es : List (Nat × Nat)) (rem : List Nat) : Option Nat :=
  rem.find? (fun v => ! hasIncomingFrom es rem v)

/-- Modelled from the spec: Kahn's algorithm, standing in for networkx's
`topological_sort` which the notebook calls as an external collaborator.
Repeatedly emit a source of the remaining subgraph; `none` signals the
defensive `CycleError` when no source exists. -/
def kahnAux (es : List (Nat × Nat)) : Nat → List Nat → Option (List Nat)
  | 0, [] => some []
  | 0, _ :: _ => none
  | _ + 1, [] => some []
  | f + 1, x :: t =>
      match pickSource es (x :: t) with
      | none => none
      | some v => (kahnAux es f ((x :: t).erase v)).map (fun L => v :: L)

/-- The topological sequence of the graph with nodes `0..n-1` and edge
list `es` (see `kahnAux`). -/
def topoSequence (n : Nat) (es : List (Nat × Nat)) : Option (List Nat) :=
  kahnAux es n (List.range n)

/-- Proof infrastructure: a canonical predecessor of `v` inside `rem`,
taken from the first matching edge. -/
def pickPredIn (es : List (Nat × Nat)) (rem : List Nat) (v : Nat) : Nat :=
  ((es.find? (fun e => e.2 == v && decide (e.1 ∈ rem))).map
    (fun e => e.1)).getD 0

/-- Proof infrastructure: iterate `pickPredIn` to walk backwards through
`rem`, used for the pigeonhole argument that a sourceless remainder holds
a cycle. -/
def chainF (es : List (Nat × Nat)) (rem : List Nat) (v0 : Nat) : Nat → Nat
  | 0 => v0
  | i + 1 => pickPredIn es rem (chainF es rem v0 i)

/-- Modelled from the spec: the concurrent Dispatcher/worker pool is
external (ipyparallel's `after=deps` handling), so a run is modelled as a
guarded event system over which the schedule is adversarial.  `startedAt`
and `completedAt` record timestamps from a monotonic clock; a node whose
`startedAt` is set has reached `Running`. -/
structure SchedState where
  startedAt : Nat → Option Nat
  completedAt : Nat → Option Nat
  clock : Nat

/-- An observable scheduling event: some worker starts or finishes work on
node `v`. -/
inductive SchedEvent where
  | start (v : Nat)
  | finish (v : Nat)

/-- The state before any work: no timestamps recorded. -/
def initSched : SchedState :=
  { startedAt := fun _ => none, completedAt := fun _ => none, clock := 0 }

/-- Modelled from the spec: one scheduling event under the dispatcher's
contract.  The schedule may propose any node at any time — independent
nodes in any relative order — but a `start v` is accepted only when `v`
has not started and every direct predecessor of `v` has completed, and a
`finish v` only when `v` is running and not yet finished.  An accepted
event stamps the current clock and advances it. -/
def schedStep (es : List (Nat × Nat)) (σ : SchedState) :
    SchedEvent → Option SchedState
  | SchedEvent.start v =>
      if (σ.startedAt v).isSome then none
      else if (predsOf es v).all (fun p => (σ.completedAt p).isSome) then
        some { startedAt := fun x => if x = v then some σ.clock
                 else σ.startedAt x,
               completedAt := σ.completedAt,
               clock := σ.clock + 1 }
      else none
  | SchedEvent.finish v =>
      if (σ.startedAt v).isSome then
        if (σ.completedAt v).isSome then none
        else
          some { startedAt := σ.startedAt,
                 completedAt := fun x => if x = v then some σ.clock
                   else σ.completedAt x,
                 clock := σ.clock + 1 }
      else none

/-- A recorded execution trace of the dispatcher: the run accepts every
event of the schedule in order. -/
def schedRun (es : List (Nat × Nat)) :
    SchedState → List SchedEvent → Option SchedState
  | σ, [] => some σ
  | σ, ev :: evs =>
      match schedStep es σ ev with
      | none => none
      | some σ2 => schedRun es σ2 evs

/-- Invariant of every reachable scheduler state: all timestamps are below
the clock, and a node that reached `Running` started strictly after every
direct predecessor's completion. -/
def schedInv (es : List (Nat × Nat)) (σ : SchedState) : Prop :=
  (∀ v t, σ.startedAt v = some t → t < σ.clock) ∧
  (∀ v t, σ.completedAt v = some t → t < σ.clock) ∧
  (∀ e ∈ es, ∀ tb, σ.startedAt e.2 = some tb →
    ∃ ta, σ.completedAt e.1 = some ta ∧ ta < tb)

/-- One concurrent schedule of the diamond: node 2 starts before node 1,
nodes 1 and 2 overlap, and node 4 runs while 2 and 3 are outstanding. -/
def demoEvents : List SchedEvent :=
  [SchedEvent.start 0, SchedEvent.finish 0, SchedEvent.start 2,
   SchedEvent.start 1, SchedEvent.finish 1, SchedEvent.start 4,
   SchedEvent.finish 2, SchedEvent.start 3, SchedEvent.finish 3,
   SchedEvent.finish 4]

/-- The final state of that schedule, read back from the run itself. -/
def demoFinal : SchedState :=
  (schedRun diamond initSched demoEvents).getD initSched

theorem drawUntilNe_spec (a : Nat) (l : List Nat) (b : Nat) (r : List Nat)
    (h : drawUntilNe a l = some (b, r)) :
    b ∈ l ∧ b ≠ a ∧ ∀ x ∈ r, x ∈ l := by
  induction l with
  | nil => cases h
  | cons x t ih =>
      unfold drawUntilNe at h
      by_cases hx : x = a
      · simp only [hx, if_true] at h
        rcases ih h with ⟨h1, h2, h3⟩
        exact ⟨List.mem_cons_of_mem _ h1, h2, fun y hy => List.mem_cons_of_mem _ (h3 y hy)⟩
      · simp only [hx, if_false] at h
        cases h
        exact ⟨List.mem_cons_self _ _, hx, fun y hy => List.mem_cons_of_mem _ hy⟩

theorem addNode_mem (G : Graph) (i : Nat) (h : i ∈ G.nodes) :
    addNode G i = G := by
  simp [addNode, h]

theorem addEdge_nodes_eq (G : Graph) (a b : Nat)
    (ha : a ∈ G.nodes) (hb : b ∈ G.nodes) :
    (addEdge G a b).nodes = G.nodes := by
  unfold addEdge
  rw [addNode_mem G a ha, addNode_mem G b hb]
  by_cases h : (a, b) ∈ G.edges <;> simp [h]

theorem addEdge_edges (G : Graph) (a b : Nat)
    (ha : a ∈ G.nodes) (hb : b ∈ G.nodes) :
    (addEdge G a b).edges = G.edges ∨
      ((a, b) ∉ G.edges ∧ (addEdge G a b).edges = G.edges ++ [(a, b)]) := by
  unfold addEdge
  rw [addNode_mem G a ha, addNode_mem G b hb]
  by_cases h : (a, b) ∈ G.edges
  · left; simp [h]
  · right; exact ⟨h, by simp [h]⟩

theorem addEdge_of_mem (G : Graph) (a b : Nat)
    (ha : a ∈ G.nodes) (hb : b ∈ G.nodes) (h : (a, b) ∈ G.edges) :
    addEdge G a b = G := by
  unfold addEdge
  rw [addNode_mem G a ha, addNode_mem G b hb]
  simp [h]

theorem removeEdge_addEdge (G : Graph) (a b : Nat)
    (ha : a ∈ G.nodes) (hb : b ∈ G.nodes) (h : (a, b) ∉ G.edges) :
    removeEdge (addEdge G a b) a b = G := by
  unfold addEdge removeEdge
  rw [addNode_mem G a ha, addNode_mem G b hb]
  simp only [h, if_false]
  have : (G.edges ++ [(a, b)]).erase (a, b) = G.edges := by
    rw [List.erase_append_right _ h]
    simp
  simp [this]

theorem randomDagLoop_inv (nodes : Nat) :
    ∀ (fuel edges : Nat) (G : Graph) (stream : List Nat) (G2 : Graph),
    randomDagLoop fuel edges G stream = some G2 →
    G.nodes = List.range nodes →
    (∀ x ∈ stream, x < nodes) →
    isDagG G = true →
    (∀ e ∈ G.edges, e.1 ≠ e.2) →
    (∀ e ∈ G.edges, e.1 < nodes ∧ e.2 < nodes) →
    G2.nodes = List.range nodes ∧ isDagG G2 = true ∧
      (∀ e ∈ G2.edges, e.1 ≠ e.2) ∧
      (∀ e ∈ G2.edges, e.1 < nodes ∧ e.2 < nodes) ∧
      G2.edges.length ≤ G.edges.length + edges := by
  intro fuel
  induction fuel with
  | zero =>
      intro edges G stream G2 h hn _ hd hs hb
      cases edges with
      | zero =>
          cases h
          exact ⟨hn, hd, hs, hb, Nat.le_refl _⟩
      | succ e => cases h
  | succ f ih =>
      intro edges G stream G2 h hn hst hd hs hb
      cases edges with
      | zero =>
          cases h
          exact ⟨hn, hd, hs, hb, Nat.le_refl _⟩
      | succ e =>
          cases stream with
          | nil => cases h
          | cons a rest =>
              simp only [randomDagLoop] at h
              cases hdraw : drawUntilNe a rest with
              | none => rw [hdraw] at h; cases h
              | some p =>
                  obtain ⟨b, rest2⟩ := p
                  rw [hdraw] at h
                  obtain ⟨hbmem, hbne, hsub⟩ := drawUntilNe_spec a rest b rest2 hdraw
                  have ha_lt : a < nodes := hst a (List.mem_cons_self _ _)
                  have hb_lt : b < nodes := hst b (List.mem_cons_of_mem _ hbmem)
                  have ha_node : a ∈ G.nodes := by
                    rw [hn]; exact List.mem_range.mpr ha_lt
                  have hb_node : b ∈ G.nodes := by
                    rw [hn]; exact List.mem_range.mpr hb_lt
                  have hst2 : ∀ x ∈ rest2, x < nodes := fun x hx =>
                    hst x (List.mem_cons_of_mem _ (hsub x hx))
                  by_cases hdag : isDagG (addEdge G a b) = true
                  · simp only [hdag, if_true] at h
                    have hnodes2 : (addEdge G a b).nodes = G.nodes :=
                      addEdge_nodes_eq G a b ha_node hb_node
                    have hself2 : ∀ e2 ∈ (addEdge G a b).edges, e2.1 ≠ e2.2 := by
                      rcases addEdge_edges G a b ha_node hb_node with he | ⟨_, he⟩
                      · rw [he]; exact hs
                      · rw [he]
                        intro e2 he2
                        rcases List.mem_append.mp he2 with h1 | h1
                        · exact hs e2 h1
                        · simp only [List.mem_singleton] at h1
                          rw [h1]; exact fun hc => hbne hc.symm
                    have hbnd2 : ∀ e2 ∈ (addEdge G a b).edges,
                        e2.1 < nodes ∧ e2.2 < nodes := by
                      rcases addEdge_edges G a b ha_node hb_node with he | ⟨_, he⟩
                      · rw [he]; exact hb
                      · rw [he]
                        intro e2 he2
                        rcases List.mem_append.mp he2 with h1 | h1
                        · exact hb e2 h1
                        · simp only [List.mem_singleton] at h1
                          rw [h1]; exact ⟨ha_lt, hb_lt⟩
                    have hlen2 : (addEdge G a b).edges.length ≤ G.edges.length + 1 := by
                      rcases addEdge_edges G a b ha_node hb_node with he | ⟨_, he⟩
                      · rw [he]; omega
                      · rw [he]; simp
                    have := ih e (addEdge G a b) rest2 G2 h (hnodes2.trans hn)
                      hst2 hdag hself2 hbnd2
                    rcases this with ⟨r1, r2, r3, r4, r5⟩
                    exact ⟨r1, r2, r3, r4, by omega⟩
                  · simp only [hdag, if_false] at h
                    have hmem : (a, b) ∉ G.edges := by
                      intro hc
                      rw [addEdge_of_mem G a b ha_node hb_node hc] at hdag
                      exact hdag hd
                    rw [removeEdge_addEdge G a b ha_node hb_node hmem] at h
                    exact ih (e + 1) G rest2 G2 h hn hst2 hd hs hb

theorem reachN_of_walk (es : List (Nat × Nat)) :
    ∀ (l : List Nat) (f a b : Nat), isWalkList es a l b = true →
      l.length + 1 ≤ f → reachN es f a b = true := by
  intro l
  induction l with
  | nil =>
      intro f a b hw hf
      cases f with
      | zero => omega
      | succ g =>
          simp only [isWalkList, decide_eq_true_eq] at hw
          simp only [reachN, List.any_eq_true]
          exact ⟨(a, b), hw, by simp⟩
  | cons x t ih =>
      intro f a b hw hf
      cases f with
      | zero => simp at hf
      | succ g =>
          simp only [isWalkList, Bool.and_eq_true, decide_eq_true_eq] at hw
          simp only [reachN, List.any_eq_true]
          refine ⟨(a, x), hw.1, ?_⟩
          simp only [beq_self_eq_true, Bool.true_and, Bool.or_eq_true]
          right
          exact ih g x b hw.2 (by simp at hf ⊢; omega)

theorem walk_of_reachN (es : List (Nat × Nat)) :
    ∀ (f a b : Nat), reachN es f a b = true →
      ∃ l, isWalkList es a l b = true ∧ l.length + 1 ≤ f := by
  intro f
  induction f with
  | zero => intro a b h; cases h
  | succ g ih =>
      intro a b h
      simp only [reachN, List.any_eq_true, Bool.and_eq_true, Bool.or_eq_true] at h
      obtain ⟨e, hmem, h1, h2⟩ := h
      have he1 : e.1 = a := by
        have := of_decide_eq_true (by exact h1)
        exact beq_iff_eq.mp h1
      rcases h2 with h2 | h2
      · refine ⟨[], ?_, by simp⟩
        simp only [isWalkList, decide_eq_true_eq]
        have he2 : e.2 = b := beq_iff_eq.mp h2
        rw [← he1, ← he2]
        exact hmem
      · obtain ⟨l, hl, hlen⟩ := ih e.2 b h2
        refine ⟨e.2 :: l, ?_, by simp; omega⟩
        simp only [isWalkList, Bool.and_eq_true, decide_eq_true_eq]
        constructor
        · rw [← he1]; exact hmem
        · exact hl

theorem walk_sources (es : List (Nat × Nat)) :
    ∀ (l : List Nat) (a b : Nat), isWalkList es a l b = true →
      ∀ x ∈ a :: l, ∃ e ∈ es, e.1 = x := by
  intro l
  induction l with
  | nil =>
      intro a b hw x hx
      simp only [isWalkList, decide_eq_true_eq] at hw
      simp only [List.mem_singleton] at hx
      exact ⟨(a, b), hw, by rw [hx]⟩
  | cons y t ih =>
      intro a b hw x hx
      simp only [isWalkList, Bool.and_eq_true, decide_eq_true_eq] at hw
      rcases List.mem_cons.mp hx with hx | hx
      · exact ⟨(a, y), hw.1, by rw [hx]⟩
      · exact ih y b hw.2 x hx

theorem walk_cut (es : List (Nat × Nat)) :
    ∀ (l : List Nat) (c b a : Nat), isWalkList es c l b = true → a ∈ l →
      ∃ l2, isWalkList es a l2 b = true ∧ l2.length < l.length := by
  intro l
  induction l with
  | nil => intro c b a _ hmem; cases hmem
  | cons x t ih =>
      intro c b a hw hmem
      simp only [isWalkList, Bool.and_eq_true, decide_eq_true_eq] at hw
      by_cases hx : x = a
      · subst hx
        exact ⟨t, hw.2, by simp⟩
      · have hmem2 : a ∈ t := by
          rcases List.mem_cons.mp hmem with h | h
          · exact absurd h.symm hx
          · exact h
        obtain ⟨l2, h1, h2⟩ := ih x b a hw.2 hmem2
        exact ⟨l2, h1, by simp; omega⟩

theorem walk_drop_after (es : List (Nat × Nat)) :
    ∀ (l1 : List Nat) (a b w : Nat) (l2 : List Nat),
      isWalkList es a (l1 ++ w :: l2) b = true →
      isWalkList es a l1 w = true ∧ isWalkList es w l2 b = true := by
  intro l1
  induction l1 with
  | nil =>
      intro a b w l2 hw
      simp only [List.nil_append, isWalkList, Bool.and_eq_true,
        decide_eq_true_eq] at hw
      exact ⟨by simp [isWalkList, hw.1], hw.2⟩
  | cons y t ih =>
      intro a b w l2 hw
      simp only [List.cons_append, isWalkList, Bool.and_eq_true,
        decide_eq_true_eq] at hw
      obtain ⟨h1, h2⟩ := ih y b w l2 hw.2
      exact ⟨by simp [isWalkList, hw.1, h1], h2⟩

theorem walk_glue (es : List (Nat × Nat)) :
    ∀ (l1 : List Nat) (a w b : Nat) (l2 : List Nat),
      isWalkList es a l1 w = true → isWalkList es w l2 b = true →
      isWalkList es a (l1 ++ w :: l2) b = true := by
  intro l1
  induction l1 with
  | nil =>
      intro a w b l2 h1 h2
      simp only [isWalkList, decide_eq_true_eq] at h1
      simp [isWalkList, h1, h2]
  | cons y t ih =>
      intro a w b l2 h1 h2
      simp only [isWalkList, Bool.and_eq_true, decide_eq_true_eq] at h1
      simp only [List.cons_append, isWalkList, Bool.and_eq_true, decide_eq_true_eq]
      exact ⟨h1.1, ih y w b l2 h1.2 h2⟩

theorem dup_split (l : List Nat) (h : ¬ l.Nodup) :
    ∃ w l1 l2, l = l1 ++ w :: l2 ∧ w ∈ l2 := by
  induction l with
  | nil => exact absurd List.nodup_nil h
  | cons x t ih =>
      by_cases hx : x ∈ t
      · exact ⟨x, [], t, by simp, hx⟩
      · have : ¬ t.Nodup := by
          intro hc
          exact h (List.nodup_cons.mpr ⟨hx, hc⟩)
        obtain ⟨w, l1, l2, heq, hmem⟩ := ih this
        exact ⟨w, x :: l1, l2, by rw [heq]; simp, hmem⟩

theorem walk_clean (es : List (Nat × Nat)) :
    ∀ (n : Nat) (l : List Nat) (a b : Nat), l.length ≤ n →
      isWalkList es a l b = true →
      ∃ l2, l2.length ≤ l.length ∧ isWalkList es a l2 b = true ∧
        (a :: l2).Nodup := by
  intro n
  induction n with
  | zero =>
      intro l a b hlen hw
      have : l = [] := List.eq_nil_of_length_eq_zero (by omega)
      subst this
      exact ⟨[], by simp, hw, by simp⟩
  | succ m ih =>
      intro l a b hlen hw
      by_cases ha : a ∈ l
      · obtain ⟨l2, h1, h2⟩ := walk_cut es l a b a hw ha
        obtain ⟨l3, h3, h4, h5⟩ := ih l2 a b (by omega) h1
        exact ⟨l3, by omega, h4, h5⟩
      · by_cases hnd : l.Nodup
        · exact ⟨l, Nat.le_refl _, hw, List.nodup_cons.mpr ⟨ha, hnd⟩⟩
        · obtain ⟨w, l1, l2, heq, hmem⟩ := dup_split l hnd
          subst heq
          obtain ⟨hpre, hsuf⟩ := walk_drop_after es l1 a b w l2 hw
          obtain ⟨l3, h1, h2⟩ := walk_cut es l2 w b w hsuf hmem
          have hglue := walk_glue es l1 a w b l3 hpre h1
          have hlen2 : (l1 ++ w :: l3).length ≤ m := by
            simp at hlen ⊢
            omega
          obtain ⟨l4, h3, h4, h5⟩ := ih (l1 ++ w :: l3) a b hlen2 hglue
          refine ⟨l4, ?_, h4, h5⟩
          simp at h3 ⊢
          omega

theorem isDagG_no_cycle (G : Graph) (hdag : isDagG G = true)
    (hclosed : ∀ e ∈ G.edges, e.1 ∈ G.nodes) :
    ∀ (f v : Nat), reachN G.edges f v v = false := by
  intro f v
  by_contra hc
  have hreach : reachN G.edges f v v = true := by
    cases h : reachN G.edges f v v
    · exact absurd h hc
    · rfl
  obtain ⟨l, hwalk, _⟩ := walk_of_reachN G.edges f v v hreach
  obtain ⟨l2, _, hwalk2, hnd⟩ := walk_clean G.edges l.length l v v (Nat.le_refl _) hwalk
  have hsub : (v :: l2) ⊆ G.nodes := by
    intro x hx
    obtain ⟨e, he, hex⟩ := walk_sources G.edges l2 v v hwalk2 x hx
    rw [← hex]
    exact hclosed e he
  have hlen : l2.length + 1 ≤ G.nodes.length := by
    have := (List.subperm_of_subset hnd hsub).length_le
    simpa using this
  have hreach2 : reachN G.edges G.nodes.length v v = true :=
    reachN_of_walk G.edges l2 G.nodes.length v v hwalk2 hlen
  have hv : v ∈ G.nodes := hsub (List.mem_cons_self _ _)
  have := List.all_eq_true.mp hdag v hv
  simp only [Bool.not_eq_true'] at this
  rw [this] at hreach2
  cases hreach2

theorem reachN_nil (f a b : Nat) : reachN [] f a b = false := by
  cases f <;> rfl

theorem isDagG_initial (nodes : Nat) :
    isDagG { nodes := List.range nodes, edges := [] } = true := by
  apply List.all_eq_true.mpr
  intro v _
  rw [reachN_nil]
  rfl

/-- C4: starting from any acyclic held graph (in particular after any number
of iterations), the edge-adding loop of `random_dag` keeps the graph
acyclic: an edge whose insertion closes a cycle is removed before the loop
continues, so the returned graph passes the acyclicity check and contains
no directed cycle of any length. -/
theorem C4_random_dag_acyclic_invariant (nodes fuel edges : Nat) (G : Graph) (stream : List Nat)
    (G2 : Graph)
    (hnodes : G.nodes = List.range nodes)
    (hstream : ∀ x ∈ stream, x < nodes)
    (hdag : isDagG G = true)
    (hself : ∀ e ∈ G.edges, e.1 ≠ e.2)
    (hbnd : ∀ e ∈ G.edges, e.1 < nodes ∧ e.2 < nodes)
    (hrun : randomDagLoop fuel edges G stream = some G2) :
    isDagG G2 = true ∧ ∀ (f v : Nat), reachN G2.edges f v v = false := by
  obtain ⟨r1, r2, r3, r4, r5⟩ :=
    randomDagLoop_inv nodes fuel edges G stream G2 hrun hnodes hstream hdag hself hbnd
  refine ⟨r2, ?_⟩
  apply isDagG_no_cycle G2 r2
  intro e he
  rw [r1]
  exact List.mem_range.mpr (r4 e he).1

/-- C5 counterexample: `random_dag 2 2` with the in-range draw stream
`[0, 1, 0, 1]` returns, but the returned graph has 1 edge, not the
requested 2: the second candidate edge duplicates `(0, 1)`, networkx's
`add_edge` is then a no-op, yet the loop still decrements its counter. -/
theorem C5_counterexample :
    random_dag 2 2 10 [0, 1, 0, 1] = some { nodes := [0, 1], edges := [(0, 1)] } ∧
      some (1 : Nat) ≠ some 2 := by
  constructor
  · decide
  · decide

/-- C5 (amended): every returning call `random_dag nodes edges` with
in-range draws yields a graph with exactly `nodes` nodes and AT MOST
`edges` edges (not always exactly `edges`: duplicate draws are
re-counted), and every candidate edge that would close a cycle is
rejected, so the result is acyclic. -/
theorem C5_random_dag_amended (nodes edges fuel : Nat) (stream : List Nat) (G2 : Graph)
    (_hn : 2 ≤ nodes)
    (hstream : ∀ x ∈ stream, x < nodes)
    (hrun : random_dag nodes edges fuel stream = some G2) :
    G2.nodes.length = nodes ∧ G2.edges.length ≤ edges ∧ isDagG G2 = true := by
  unfold random_dag at hrun
  obtain ⟨r1, r2, r3, r4, r5⟩ :=
    randomDagLoop_inv nodes fuel edges _ stream G2 hrun rfl hstream
      (isDagG_initial nodes) (by intro e he; cases he) (by intro e he; cases he)
  refine ⟨?_, ?_, r2⟩
  · rw [r1]; exact List.length_range nodes
  · simpa using r5

/-- C8: every graph returned by `random_dag` contains no self-loop: for
every edge (a, b) of the returned graph, a differs from b, because the
candidate target is re-drawn until it differs from the source. -/
theorem C8_no_self_loops (nodes edges fuel : Nat) (stream : List Nat) (G2 : Graph)
    (hstream : ∀ x ∈ stream, x < nodes)
    (hrun : random_dag nodes edges fuel stream = some G2) :
    ∀ e ∈ G2.edges, e.1 ≠ e.2 := by
  unfold random_dag at hrun
  obtain ⟨r1, r2, r3, r4, r5⟩ :=
    randomDagLoop_inv nodes fuel edges _ stream G2 hrun rfl hstream
      (isDagG_initial nodes) (by intro e he; cases he) (by intro e he; cases he)
  exact r3

theorem predsOf_lt (es : List (Nat × Nat)) (hasc : ∀ e ∈ es, e.1 < e.2)
    (n : Nat) : ∀ p ∈ predsOf es n, p < n := by
  intro p hp
  simp only [predsOf, List.mem_map, List.mem_filter, beq_iff_eq] at hp
  obtain ⟨e, ⟨he, he2⟩, he1⟩ := hp
  have := hasc e he
  omega

theorem list_any_congr {A : Type} (p q : A → Bool) (l : List A)
    (h : ∀ x ∈ l, p x = q x) : l.any p = l.any q := by
  induction l with
  | nil => rfl
  | cons x t ih =>
      simp only [List.any_cons]
      rw [h x (List.mem_cons_self _ _), ih (fun y hy => h y (List.mem_cons_of_mem _ hy))]

theorem fsAux_stable (es : List (Nat × Nat)) (failed : Nat)
    (hasc : ∀ e ∈ es, e.1 < e.2) :
    ∀ (n f1 f2 : Nat), n ≤ f1 → n ≤ f2 →
      fsAux es failed f1 n = fsAux es failed f2 n := by
  intro n
  induction n using Nat.strong_induction_on with
  | _ n ih =>
      intro f1 f2 h1 h2
      cases f1 with
      | zero =>
          cases f2 with
          | zero => rfl
          | succ g2 =>
              have hn : n = 0 := by omega
              subst hn
              simp only [fsAux]
              have : predsOf es 0 = [] := by
                cases hp : predsOf es 0 with
                | nil => rfl
                | cons q t =>
                    have : q < 0 := predsOf_lt es hasc 0 q (by rw [hp]; simp)
                    omega
              rw [this]
              simp
      | succ g1 =>
          cases f2 with
          | zero =>
              have hn : n = 0 := by omega
              subst hn
              simp only [fsAux]
              have : predsOf es 0 = [] := by
                cases hp : predsOf es 0 with
                | nil => rfl
                | cons q t =>
                    have : q < 0 := predsOf_lt es hasc 0 q (by rw [hp]; simp)
                    omega
              rw [this]
              simp
          | succ g2 =>
              simp only [fsAux]
              by_cases hf : n = failed
              · simp [hf]
              · simp only [hf, if_false]
                have : (predsOf es n).any
                      (fun p => isFailedOrUnreachableB (fsAux es failed g1 p)) =
                    (predsOf es n).any
                      (fun p => isFailedOrUnreachableB (fsAux es failed g2 p)) := by
                  apply list_any_congr
                  intro p hp
                  have hlt : p < n := predsOf_lt es hasc n p hp
                  rw [ih p hlt g1 p (by omega) (Nat.le_refl p),
                      ih p hlt g2 p (by omega) (Nat.le_refl p)]
                rw [this]

theorem reachFromAux_stable (es : List (Nat × Nat)) (f0 : Nat)
    (hasc : ∀ e ∈ es, e.1 < e.2) :
    ∀ (n f1 f2 : Nat), n ≤ f1 → n ≤ f2 →
      reachFromAux es f0 f1 n = reachFromAux es f0 f2 n := by
  intro n
  induction n using Nat.strong_induction_on with
  | _ n ih =>
      intro f1 f2 h1 h2
      have hzero : ∀ g : Nat, n = 0 →
          reachFromAux es f0 g n = false := by
        intro g hn
        subst hn
        cases g with
        | zero => rfl
        | succ g2 =>
            simp only [reachFromAux]
            have : predsOf es 0 = [] := by
              cases hp : predsOf es 0 with
              | nil => rfl
              | cons q t =>
                  have : q < 0 := predsOf_lt es hasc 0 q (by rw [hp]; simp)
                  omega
            rw [this]
            rfl
      cases f1 with
      | zero =>
          have hn : n = 0 := by omega
          rw [hzero 0 hn, hzero f2 hn]
      | succ g1 =>
          cases f2 with
          | zero =>
              have hn : n = 0 := by omega
              rw [hzero (g1 + 1) hn, hzero 0 hn]
          | succ g2 =>
              simp only [reachFromAux]
              apply list_any_congr
              intro p hp
              have hlt : p < n := predsOf_lt es hasc n p hp
              rw [ih p hlt g1 p (by omega) (Nat.le_refl p),
                  ih p hlt g2 p (by omega) (Nat.le_refl p)]

theorem finalState_unfold (es : List (Nat × Nat)) (failed : Nat)
    (hasc : ∀ e ∈ es, e.1 < e.2) (n : Nat) :
    finalState es failed n =
      if n = failed then TState.Failed
      else if (predsOf es n).any
          (fun p => isFailedOrUnreachableB (finalState es failed p)) then
        TState.Unreachable
      else TState.Succeeded := by
  cases n with
  | zero =>
      have hp0 : predsOf es 0 = [] := by
        cases hp : predsOf es 0 with
        | nil => rfl
        | cons q t =>
            have : q < 0 := predsOf_lt es hasc 0 q (by rw [hp]; simp)
            omega
      simp [finalState, fsAux, hp0]
  | succ m =>
      show fsAux es failed (m + 1) (m + 1) = _
      simp only [fsAux]
      have hAB : ((predsOf es (m + 1)).any
            (fun p => isFailedOrUnreachableB (fsAux es failed m p))) =
          ((predsOf es (m + 1)).any
            (fun p => isFailedOrUnreachableB (finalState es failed p))) := by
        apply list_any_congr
        intro p hp
        have hlt : p < m + 1 := predsOf_lt es hasc (m + 1) p hp
        rw [fsAux_stable es failed hasc p m p (by omega) (Nat.le_refl p)]
        rfl
      rw [hAB]

theorem reachesFrom_unfold (es : List (Nat × Nat)) (f0 : Nat)
    (hasc : ∀ e ∈ es, e.1 < e.2) (n : Nat) :
    reachesFrom es f0 n =
      (predsOf es n).any (fun p => p == f0 || reachesFrom es f0 p) := by
  cases n with
  | zero =>
      have hp0 : predsOf es 0 = [] := by
        cases hp : predsOf es 0 with
        | nil => rfl
        | cons q t =>
            have : q < 0 := predsOf_lt es hasc 0 q (by rw [hp]; simp)
            omega
      simp [reachesFrom, reachFromAux, hp0]
  | succ m =>
      show reachFromAux es f0 (m + 1) (m + 1) = _
      simp only [reachFromAux]
      apply list_any_congr
      intro p hp
      have hlt : p < m + 1 := predsOf_lt es hasc (m + 1) p hp
      rw [reachFromAux_stable es f0 hasc p m p (by omega) (Nat.le_refl p)]
      rfl

theorem reachesFrom_lt (es : List (Nat × Nat)) (f0 : Nat)
    (hasc : ∀ e ∈ es, e.1 < e.2) :
    ∀ n, reachesFrom es f0 n = true → f0 < n := by
  intro n
  induction n using Nat.strong_induction_on with
  | _ n ih =>
      intro h
      rw [reachesFrom_unfold es f0 hasc] at h
      obtain ⟨p, hp, hor⟩ := List.any_eq_true.mp h
      have hlt : p < n := predsOf_lt es hasc n p hp
      simp only [Bool.or_eq_true, beq_iff_eq] at hor
      rcases hor with h1 | h1
      · omega
      · have := ih p hlt h1
        omega

theorem propagation_general (es : List (Nat × Nat)) (f0 : Nat)
    (hasc : ∀ e ∈ es, e.1 < e.2) :
    ∀ n, (reachesFrom es f0 n = true → finalState es f0 n = TState.Unreachable) ∧
      (n ≠ f0 → reachesFrom es f0 n = false →
        finalState es f0 n = TState.Succeeded) := by
  intro n
  induction n using Nat.strong_induction_on with
  | _ n ih =>
      constructor
      · intro h
        have hne : n ≠ f0 := by
          have := reachesFrom_lt es f0 hasc n h
          omega
        rw [finalState_unfold es f0 hasc, if_neg hne]
        rw [reachesFrom_unfold es f0 hasc] at h
        obtain ⟨p, hp, hor⟩ := List.any_eq_true.mp h
        have hlt : p < n := predsOf_lt es hasc n p hp
        have hbad : isFailedOrUnreachableB (finalState es f0 p) = true := by
          simp only [Bool.or_eq_true, beq_iff_eq] at hor
          rcases hor with h1 | h1
          · rw [h1, finalState_unfold es f0 hasc, if_pos rfl]
            rfl
          · rw [(ih p hlt).1 h1]
            rfl
        have : (predsOf es n).any
            (fun p => isFailedOrUnreachableB (finalState es f0 p)) = true :=
          List.any_eq_true.mpr ⟨p, hp, hbad⟩
        rw [this]
        simp
      · intro hne h
        rw [finalState_unfold es f0 hasc, if_neg hne]
        rw [reachesFrom_unfold es f0 hasc] at h
        have hall : (predsOf es n).any
            (fun p => isFailedOrUnreachableB (finalState es f0 p)) = false := by
          rw [List.any_eq_false]
          intro p hp
          have hlt : p < n := predsOf_lt es hasc n p hp
          have h2 := List.any_eq_false.mp h p hp
          simp only [Bool.or_eq_true, beq_iff_eq, not_or,
            Bool.not_eq_true] at h2
          rw [(ih p hlt).2 h2.1 h2.2]
          simp [isFailedOrUnreachableB]
        rw [hall]
        simp

/-- C2: under `ALL_SUCCESS`, when a node fails every strict descendant of
it ends `Unreachable`, while every other node (not depending on it) still
reaches `Succeeded`; instantiated on the 5-node diamond: if node 1 fails
then node 2 succeeds and nodes 3, 4 are unreachable, and if node 2 fails
then node 3 is unreachable and node 4 succeeds. -/
theorem C2_failure_propagation (es : List (Nat × Nat)) (f0 : Nat)
    (hasc : ∀ e ∈ es, e.1 < e.2) :
    (∀ n, reachesFrom es f0 n = true →
        finalState es f0 n = TState.Unreachable) ∧
    (∀ n, n ≠ f0 → reachesFrom es f0 n = false →
        finalState es f0 n = TState.Succeeded) ∧
    (finalState diamond 1 2 = TState.Succeeded ∧
      finalState diamond 1 3 = TState.Unreachable ∧
      finalState diamond 1 4 = TState.Unreachable) ∧
    (finalState diamond 2 3 = TState.Unreachable ∧
      finalState diamond 2 4 = TState.Succeeded) := by
  refine ⟨fun n => (propagation_general es f0 hasc n).1,
    fun n => (propagation_general es f0 hasc n).2, ?_, ?_⟩
  · exact ⟨by decide, by decide, by decide⟩
  · exact ⟨by decide, by decide⟩

/-- C3: in the 5-node diamond under `ALL_SUCCESS`, if node 0 fails then
node 0 ends `Failed` and nodes 1, 2, 3, 4 all end `Unreachable`. -/
theorem C3_diamond_root_failure :
    finalState diamond 0 0 = TState.Failed ∧
      finalState diamond 0 1 = TState.Unreachable ∧
      finalState diamond 0 2 = TState.Unreachable ∧
      finalState diamond 0 3 = TState.Unreachable ∧
      finalState diamond 0 4 = TState.Unreachable := by
  decide

/-- C7 counterexample: with heterogeneous policies the resolver is NOT
idempotent.  Node 0 is `Failed` with successors 1 (policy `ALL_DONE`,
depending on 0 and 2) and 2 (policy `ALL_SUCCESS`, depending on 0).  The
first `resolve` call leaves 1 `Pending` and makes 2 `Unreachable`; the
second call with the same successor set then moves 1 to `Ready` — an
additional state transition. -/
theorem C7_counterexample :
    resolve cexEdges cexPol 0 cexSt 1 = TState.Pending ∧
      resolve cexEdges cexPol 0 (resolve cexEdges cexPol 0 cexSt) 1 =
        TState.Ready := by
  constructor
  · decide
  · decide

theorem list_all_congr {A : Type} (p q : A → Bool) (l : List A)
    (h : ∀ x ∈ l, p x = q x) : l.all p = l.all q := by
  induction l with
  | nil => rfl
  | cons x t ih =>
      simp only [List.all_cons]
      rw [h x (List.mem_cons_self _ _), ih (fun y hy => h y (List.mem_cons_of_mem _ hy))]

theorem resolveNode_pending (es : List (Nat × Nat)) (pol : Nat → Policy)
    (c : Nat) (st : Nat → TState) (s : Nat) (h : st s = TState.Pending) :
    resolveNode es pol c st s = TState.Unreachable ∨
      resolveNode es pol c st s = TState.Ready ∨
      resolveNode es pol c st s = TState.Pending := by
  unfold resolveNode
  rw [if_pos h]
  cases pol s <;> dsimp only
  · split
    · left; rfl
    · split
      · right; left; rfl
      · right; right; rfl
  · split
    · right; left; rfl
    · right; right; rfl
  · split
    · right; left; rfl
    · right; right; rfl
  · split
    · right; left; rfl
    · right; right; rfl

theorem resolveStep_isSucc (es : List (Nat × Nat)) (pol : Nat → Policy)
    (c : Nat) (st : Nat → TState) (s w : Nat) :
    isSucceededB (resolveStep es pol c st s w) = isSucceededB (st w) := by
  unfold resolveStep updState
  by_cases hw : w = s
  · rw [if_pos hw, hw]
    by_cases hp : st s = TState.Pending
    · rcases resolveNode_pending es pol c st s hp with h | h | h <;>
        rw [h, hp] <;> rfl
    · unfold resolveNode
      rw [if_neg hp]
  · rw [if_neg hw]

theorem resolveNode_self_pending (es : List (Nat × Nat)) (pol : Nat → Policy)
    (c : Nat) (st : Nat → TState) (h : st c = TState.Pending) :
    resolveNode es pol c st c = TState.Ready ∨
      resolveNode es pol c st c = TState.Pending := by
  unfold resolveNode
  rw [if_pos h]
  cases pol c <;> dsimp only
  · rw [h]
    rw [if_neg (by intro hc; cases hc)]
    split
    · left; rfl
    · right; rfl
  · split
    · left; rfl
    · right; rfl
  · split
    · left; rfl
    · right; rfl
  · split
    · left; rfl
    · right; rfl

theorem resolveStep_isF_c (es : List (Nat × Nat)) (pol : Nat → Policy)
    (c : Nat) (st : Nat → TState) (s : Nat) :
    isFailedOrUnreachableB (resolveStep es pol c st s c) =
      isFailedOrUnreachableB (st c) := by
  by_cases hw : c = s
  · subst hw
    unfold resolveStep updState
    rw [if_pos rfl]
    by_cases hp : st c = TState.Pending
    · rcases resolveNode_self_pending es pol c st hp with h | h
      · rw [h, hp]
        rfl
      · rw [h, hp]
    · rw [show resolveNode es pol c st c = st c from by
        unfold resolveNode; rw [if_neg hp]]
  · unfold resolveStep updState
    rw [if_neg hw]

theorem resolveStep_pending (es : List (Nat × Nat)) (pol : Nat → Policy)
    (c : Nat) (st : Nat → TState) (s w : Nat)
    (h : resolveStep es pol c st s w = TState.Pending) :
    st w = TState.Pending := by
  unfold resolveStep updState at h
  by_cases hw : w = s
  · rw [if_pos hw] at h
    by_cases hp : st s = TState.Pending
    · rw [hw]; exact hp
    · unfold resolveNode at h
      rw [if_neg hp] at h
      rw [hw]; exact h
  · rw [if_neg hw] at h
    exact h

theorem resolveStep_keep (es : List (Nat × Nat)) (pol : Nat → Policy)
    (c : Nat) (st : Nat → TState) (s w : Nat)
    (h : st w ≠ TState.Pending) :
    resolveStep es pol c st s w = st w := by
  unfold resolveStep updState
  by_cases hw : w = s
  · rw [if_pos hw]
    unfold resolveNode
    rw [← hw, if_neg h]
  · rw [if_neg hw]

theorem resolveFold_isSucc (es : List (Nat × Nat)) (pol : Nat → Policy)
    (c : Nat) :
    ∀ (l : List Nat) (st : Nat → TState) (w : Nat),
      isSucceededB (l.foldl (resolveStep es pol c) st w) =
        isSucceededB (st w) := by
  intro l
  induction l with
  | nil => intro st w; rfl
  | cons x t ih =>
      intro st w
      rw [List.foldl_cons, ih, resolveStep_isSucc]

theorem resolveFold_isF_c (es : List (Nat × Nat)) (pol : Nat → Policy)
    (c : Nat) :
    ∀ (l : List Nat) (st : Nat → TState),
      isFailedOrUnreachableB (l.foldl (resolveStep es pol c) st c) =
        isFailedOrUnreachableB (st c) := by
  intro l
  induction l with
  | nil => intro st; rfl
  | cons x t ih =>
      intro st
      rw [List.foldl_cons, ih, resolveStep_isF_c]

theorem resolveFold_pending (es : List (Nat × Nat)) (pol : Nat → Policy)
    (c : Nat) :
    ∀ (l : List Nat) (st : Nat → TState) (w : Nat),
      l.foldl (resolveStep es pol c) st w = TState.Pending →
        st w = TState.Pending := by
  intro l
  induction l with
  | nil => intro st w h; exact h
  | cons x t ih =>
      intro st w h
      rw [List.foldl_cons] at h
      exact resolveStep_pending es pol c st x w (ih _ w h)

theorem resolveFold_keep (es : List (Nat × Nat)) (pol : Nat → Policy)
    (c : Nat) :
    ∀ (l : List Nat) (st : Nat → TState) (w : Nat),
      st w ≠ TState.Pending →
        l.foldl (resolveStep es pol c) st w = st w := by
  intro l
  induction l with
  | nil => intro st w _; rfl
  | cons x t ih =>
      intro st w h
      rw [List.foldl_cons]
      have hx : resolveStep es pol c st x w = st w :=
        resolveStep_keep es pol c st x w h
      rw [ih _ w (by rw [hx]; exact h), hx]

theorem resolveFold_conditions (es : List (Nat × Nat)) (pol : Nat → Policy)
    (c : Nat) (st0 : Nat → TState)
    (hpol : ∀ n, pol n = Policy.ALL_SUCCESS) :
    ∀ (l : List Nat) (acc : Nat → TState),
      (∀ w, isSucceededB (acc w) = isSucceededB (st0 w)) →
      isFailedOrUnreachableB (acc c) = isFailedOrUnreachableB (st0 c) →
      ∀ s ∈ l, l.foldl (resolveStep es pol c) acc s = TState.Pending →
        isFailedOrUnreachableB (st0 c) = false ∧
          (predsOf es s).all (fun p => isSucceededB (st0 p)) = false := by
  intro l
  induction l with
  | nil => intro acc _ _ s hs; cases hs
  | cons x t ih =>
      intro acc h1 h2 s hs hpend
      rw [List.foldl_cons] at hpend
      have h1x : ∀ w, isSucceededB (resolveStep es pol c acc x w) =
          isSucceededB (st0 w) := fun w => by
        rw [resolveStep_isSucc, h1]
      have h2x : isFailedOrUnreachableB (resolveStep es pol c acc x c) =
          isFailedOrUnreachableB (st0 c) := by
        rw [resolveStep_isF_c, h2]
      rcases List.mem_cons.mp hs with hsx | hst
      · subst hsx
        have hacc2 : resolveStep es pol c acc s s = TState.Pending :=
          resolveFold_pending es pol c t _ s hpend
        have haccp : acc s = TState.Pending :=
          resolveStep_pending es pol c acc s s hacc2
        have hval : resolveNode es pol c acc s = TState.Pending := by
          have : resolveStep es pol c acc s s = resolveNode es pol c acc s := by
            unfold resolveStep updState
            rw [if_pos rfl]
          rw [← this]
          exact hacc2
        unfold resolveNode at hval
        rw [if_pos haccp, hpol s] at hval
        dsimp only at hval
        by_cases hf : isFailedOrUnreachableB (acc c) = true
        · rw [if_pos hf] at hval
          cases hval
        · rw [if_neg hf] at hval
          constructor
          · rw [← h2]
            cases hfc : isFailedOrUnreachableB (acc c)
            · rfl
            · exact absurd hfc hf
          · by_cases hall : (predsOf es s).all
                (fun p => isSucceededB (acc p)) = true
            · rw [if_pos hall] at hval
              cases hval
            · rw [← list_all_congr _ _ _ (fun p _ => h1 p)]
              cases hallc : (predsOf es s).all (fun p => isSucceededB (acc p))
              · rfl
              · exact absurd hallc hall
      · exact ih (resolveStep es pol c acc x) h1x h2x s hst hpend

theorem resolveFold_noop (es : List (Nat × Nat)) (pol : Nat → Policy)
    (c : Nat) (hpol : ∀ n, pol n = Policy.ALL_SUCCESS) :
    ∀ (l : List Nat) (st : Nat → TState),
      (∀ s ∈ l, st s = TState.Pending →
        isFailedOrUnreachableB (st c) = false ∧
          (predsOf es s).all (fun p => isSucceededB (st p)) = false) →
      l.foldl (resolveStep es pol c) st = st := by
  intro l
  induction l with
  | nil => intro st _; rfl
  | cons x t ih =>
      intro st hconds
      have hstep : resolveStep es pol c st x = st := by
        funext y
        unfold resolveStep updState
        by_cases hy : y = x
        · rw [if_pos hy, hy]
          by_cases hp : st x = TState.Pending
          · obtain ⟨hA, hB⟩ := hconds x (List.mem_cons_self _ _) hp
            unfold resolveNode
            rw [if_pos hp, hpol x]
            dsimp only
            rw [if_neg (by rw [hA]; intro hc; cases hc),
              if_neg (by rw [hB]; intro hc; cases hc)]
            exact hp.symm
          · unfold resolveNode
            rw [if_neg hp]
        · rw [if_neg hy]
      rw [List.foldl_cons, hstep]
      exact ih st (fun s hs => hconds s (List.mem_cons_of_mem _ hs))

/-- C7 (amended): under a uniform `ALL_SUCCESS` policy, applying `resolve`
a second time for the same completed node and successor set performs no
additional transition; and under any policies, a successor that is Ready
or beyond is never changed by `resolve`.  With mixed policies idempotence
can fail (see the counterexample). -/
theorem C7_resolve_idempotent_amended (es : List (Nat × Nat)) (pol : Nat → Policy)
    (c : Nat) (st : Nat → TState) :
    ((∀ n, pol n = Policy.ALL_SUCCESS) →
      ∀ v, resolve es pol c (resolve es pol c st) v =
        resolve es pol c st v) ∧
    (∀ v, st v ≠ TState.Pending → resolve es pol c st v = st v) := by
  constructor
  · intro hpol v
    have hK := resolveFold_conditions es pol c st hpol (succsOf es c) st
      (fun _ => rfl) rfl
    have hconds : ∀ s ∈ succsOf es c,
        resolve es pol c st s = TState.Pending →
        isFailedOrUnreachableB (resolve es pol c st c) = false ∧
          (predsOf es s).all
            (fun p => isSucceededB (resolve es pol c st p)) = false := by
      intro s hs hp
      obtain ⟨hA, hB⟩ := hK s hs hp
      constructor
      · rw [show resolve es pol c st c =
            (succsOf es c).foldl (resolveStep es pol c) st c from rfl,
          resolveFold_isF_c]
        exact hA
      · have hcg : ((predsOf es s).all
              (fun p => isSucceededB (resolve es pol c st p))) =
            ((predsOf es s).all (fun p => isSucceededB (st p))) :=
          list_all_congr _ _ _
            (fun p _ => resolveFold_isSucc es pol c (succsOf es c) st p)
        rw [hcg]
        exact hB
    have hnoop := resolveFold_noop es pol c hpol (succsOf es c)
      (resolve es pol c st) hconds
    show (succsOf es c).foldl (resolveStep es pol c)
        (resolve es pol c st) v = resolve es pol c st v
    rw [hnoop]
  · intro v h
    exact resolveFold_keep es pol c (succsOf es c) st v h

theorem pickPredIn_spec (es : List (Nat × Nat)) (rem : List Nat) (v : Nat)
    (h : hasIncomingFrom es rem v = true) :
    (pickPredIn es rem v, v) ∈ es ∧ pickPredIn es rem v ∈ rem := by
  unfold hasIncomingFrom at h
  obtain ⟨e, hmem, hprop⟩ := List.any_eq_true.mp h
  cases hfind : es.find? (fun e => e.2 == v && decide (e.1 ∈ rem)) with
  | none =>
      have := List.find?_eq_none.mp hfind e hmem
      exact absurd hprop this
  | some e2 =>
      have hp2 := List.find?_some hfind
      have hm2 := List.mem_of_find?_eq_some hfind
      simp only [Bool.and_eq_true, beq_iff_eq, decide_eq_true_eq] at hp2
      unfold pickPredIn
      rw [hfind]
      show (e2.1, v) ∈ es ∧ e2.1 ∈ rem
      constructor
      · have he2 : e2 = (e2.1, v) := by
          rw [← hp2.1]
        rw [← he2]
        exact hm2
      · exact hp2.2

theorem chainF_mem (es : List (Nat × Nat)) (rem : List Nat) (v0 : Nat)
    (hv0 : v0 ∈ rem)
    (hall : ∀ v ∈ rem, hasIncomingFrom es rem v = true) :
    ∀ i, chainF es rem v0 i ∈ rem := by
  intro i
  induction i with
  | zero => exact hv0
  | succ j ih =>
      show pickPredIn es rem (chainF es rem v0 j) ∈ rem
      exact (pickPredIn_spec es rem _ (hall _ ih)).2

theorem chainF_edge (es : List (Nat × Nat)) (rem : List Nat) (v0 : Nat)
    (hv0 : v0 ∈ rem)
    (hall : ∀ v ∈ rem, hasIncomingFrom es rem v = true) :
    ∀ i, (chainF es rem v0 (i + 1), chainF es rem v0 i) ∈ es := by
  intro i
  exact (pickPredIn_spec es rem _ (hall _ (chainF_mem es rem v0 hv0 hall i))).1

theorem chainF_walk (es : List (Nat × Nat)) (rem : List Nat) (v0 : Nat)
    (hv0 : v0 ∈ rem)
    (hall : ∀ v ∈ rem, hasIncomingFrom es rem v = true) :
    ∀ d i, ∃ l : List Nat, l.length = d ∧
      isWalkList es (chainF es rem v0 (i + d + 1)) l
        (chainF es rem v0 i) = true := by
  intro d
  induction d with
  | zero =>
      intro i
      refine ⟨[], rfl, ?_⟩
      simp only [isWalkList, decide_eq_true_eq]
      exact chainF_edge es rem v0 hv0 hall i
  | succ d2 ih =>
      intro i
      obtain ⟨l, hlen, hw⟩ := ih i
      refine ⟨chainF es rem v0 (i + d2 + 1) :: l, by simp [hlen], ?_⟩
      simp only [isWalkList, Bool.and_eq_true, decide_eq_true_eq]
      constructor
      · have := chainF_edge es rem v0 hv0 hall (i + d2 + 1)
        have harith : i + (d2 + 1) + 1 = (i + d2 + 1) + 1 := by omega
        rw [harith]
        exact this
      · exact hw

theorem exists_source (n : Nat) (es : List (Nat × Nat)) (rem : List Nat)
    (hdag : isDagB n es = true) (hsub : ∀ v ∈ rem, v < n)
    (hnd : rem.Nodup) (hne : rem ≠ []) :
    ∃ v, pickSource es rem = some v := by
  cases hpick : pickSource es rem with
  | some v => exact ⟨v, rfl⟩
  | none =>
      exfalso
      unfold pickSource at hpick
      have hall : ∀ v ∈ rem, hasIncomingFrom es rem v = true := by
        intro v hv
        have := List.find?_eq_none.mp hpick v hv
        simp only [Bool.not_eq_true', Bool.not_eq_false] at this
        exact this
      obtain ⟨v0, hv0⟩ := List.exists_mem_of_ne_nil rem hne
      have hmlen : rem.length ≤ n := by
        have h1 := (List.subperm_of_subset hnd
          (fun x hx => List.mem_range.mpr (hsub x hx))).length_le
        simpa using h1
      have hmaps : ∀ i ∈ Finset.range (rem.length + 1),
          chainF es rem v0 i ∈ rem.toFinset := by
        intro i _
        exact List.mem_toFinset.mpr (chainF_mem es rem v0 hv0 hall i)
      have hcard : rem.toFinset.card < (Finset.range (rem.length + 1)).card := by
        rw [Finset.card_range]
        have := rem.toFinset_card_le
        omega
      obtain ⟨i, hi, j, hj, hij, heq⟩ :=
        Finset.exists_ne_map_eq_of_card_lt_of_maps_to hcard hmaps
      rcases Nat.lt_or_ge i j with hlt | hge
      · obtain ⟨l, hlen, hw⟩ := chainF_walk es rem v0 hv0 hall (j - i - 1) i
        have harith : i + (j - i - 1) + 1 = j := by
          simp only [Finset.mem_range] at hi hj
          omega
        rw [harith, heq] at hw
        have hreach : reachN es n (chainF es rem v0 j) (chainF es rem v0 j) = true := by
          apply reachN_of_walk es l n _ _ hw
          simp only [Finset.mem_range] at hi hj
          omega
        have hvmem : chainF es rem v0 j ∈ rem := by
          rw [← heq]
          exact chainF_mem es rem v0 hv0 hall i
        have := List.all_eq_true.mp hdag (chainF es rem v0 j)
          (List.mem_range.mpr (hsub _ hvmem))
        simp only [Bool.not_eq_true'] at this
        rw [this] at hreach
        cases hreach
      · have hgt : j < i := by omega
        obtain ⟨l, hlen, hw⟩ := chainF_walk es rem v0 hv0 hall (i - j - 1) j
        have harith : j + (i - j - 1) + 1 = i := by
          simp only [Finset.mem_range] at hi hj
          omega
        rw [harith, heq] at hw
        have hreach : reachN es n (chainF es rem v0 i) (chainF es rem v0 i) = true := by
          rw [← heq] at hw
          apply reachN_of_walk es l n _ _ hw
          simp only [Finset.mem_range] at hi hj
          omega
        have hvmem : chainF es rem v0 i ∈ rem := chainF_mem es rem v0 hv0 hall i
        have := List.all_eq_true.mp hdag (chainF es rem v0 i)
          (List.mem_range.mpr (hsub _ hvmem))
        simp only [Bool.not_eq_true'] at this
        rw [this] at hreach
        cases hreach

theorem kahnAux_spec (n : Nat) (es : List (Nat × Nat))
    (hdag : isDagB n es = true) :
    ∀ (fuel : Nat) (rem : List Nat), rem.Nodup → (∀ v ∈ rem, v < n) →
      rem.length ≤ fuel →
      ∃ L, kahnAux es fuel rem = some L ∧ L.Perm rem ∧
        ∀ e ∈ es, e.1 ∈ rem → e.2 ∈ rem →
          L.indexOf e.1 < L.indexOf e.2 := by
  intro fuel
  induction fuel with
  | zero =>
      intro rem hnd hsub hlen
      have hrem : rem = [] := List.eq_nil_of_length_eq_zero (by omega)
      subst hrem
      exact ⟨[], rfl, List.Perm.refl _, fun e _ _ h2 => absurd h2 (by simp)⟩
  | succ f ih =>
      intro rem hnd hsub hlen
      cases rem with
      | nil =>
          exact ⟨[], rfl, List.Perm.refl _, fun e _ _ h2 => absurd h2 (by simp)⟩
      | cons x t =>
        have hne : x :: t ≠ [] := by simp
        obtain ⟨v, hv⟩ := exists_source n es (x :: t) hdag hsub hnd hne
        have hvmem : v ∈ x :: t := List.mem_of_find?_eq_some hv
        have hvsrc : hasIncomingFrom es (x :: t) v = false := by
          have := List.find?_some hv
          simp only [Bool.not_eq_true'] at this
          exact this
        have hnd2 : ((x :: t).erase v).Nodup := hnd.erase v
        have hsub2 : ∀ w ∈ (x :: t).erase v, w < n := fun w hw =>
          hsub w (List.erase_subset v (x :: t) hw)
        have hlen2 : ((x :: t).erase v).length ≤ f := by
          rw [List.length_erase_of_mem hvmem]
          have : 0 < (x :: t).length := List.length_pos_of_ne_nil hne
          omega
        obtain ⟨L2, hL2, hperm2, hord2⟩ := ih ((x :: t).erase v) hnd2 hsub2 hlen2
        refine ⟨v :: L2, ?_, ?_, ?_⟩
        · show (match pickSource es (x :: t) with
            | none => none
            | some v => (kahnAux es f ((x :: t).erase v)).map
                (fun L => v :: L)) = some (v :: L2)
          rw [hv]
          show (kahnAux es f ((x :: t).erase v)).map (fun L => v :: L) =
            some (v :: L2)
          rw [hL2]
          rfl
        · exact (hperm2.cons v).trans (List.perm_cons_erase hvmem).symm
        · intro e hemem he1 he2
          by_cases hb : e.2 = v
          · exfalso
            have : hasIncomingFrom es (x :: t) v = true := by
              unfold hasIncomingFrom
              apply List.any_eq_true.mpr
              exact ⟨e, hemem, by simp [hb, he1]⟩
            rw [this] at hvsrc
            cases hvsrc
          · by_cases ha : e.1 = v
            · rw [ha, List.indexOf_cons_self]
              rw [List.indexOf_cons_ne L2 (fun hc => hb hc.symm)]
              omega
            · rw [List.indexOf_cons_ne L2 (fun hc => ha hc.symm),
                List.indexOf_cons_ne L2 (fun hc => hb hc.symm)]
              have he1e : e.1 ∈ (x :: t).erase v :=
                (List.mem_erase_of_ne ha).mpr he1
              have he2e : e.2 ∈ (x :: t).erase v :=
                (List.mem_erase_of_ne hb).mpr he2
              have := hord2 e hemem he1e he2e
              omega

theorem mem_predsOf (es : List (Nat × Nat)) (p b : Nat) :
    p ∈ predsOf es b ↔ (p, b) ∈ es := by
  unfold predsOf
  simp only [List.mem_map, List.mem_filter, beq_iff_eq]
  constructor
  · rintro ⟨e, ⟨he, h2⟩, h1⟩
    have : e = (p, b) := by
      cases e
      simp_all
    rw [← this]
    exact he
  · intro h
    exact ⟨(p, b), ⟨h, rfl⟩, rfl⟩

theorem mem_take_of_indexOf_lt (l : List Nat) (a : Nat) (k : Nat)
    (ha : a ∈ l) (hk : l.indexOf a < k) : a ∈ l.take k := by
  have h1 : l.indexOf a < l.length := List.indexOf_lt_length.mpr ha
  have h2 : l.indexOf a < (l.take k).length := by
    simp only [List.length_take]
    omega
  have h3 : (l.take k).get ⟨l.indexOf a, h2⟩ = l.get ⟨l.indexOf a, h1⟩ := by
    simp [List.getElem_take']
  have h4 := List.indexOf_get h1
  rw [h4] at h3
  rw [← h3]
  exact List.get_mem _ _ _

/-- C6: for an acyclic graph the topological sequence exists, contains
every node exactly once (it is a permutation of the node set), the source
of every edge precedes its target, and consequently every direct
predecessor of a node lies in the already-submitted prefix — its result
handle exists — by the time the node is submitted. -/
theorem C6_topological_sequence (n : Nat) (es : List (Nat × Nat))
    (hdag : isDagB n es = true)
    (hbnd : ∀ e ∈ es, e.1 < n ∧ e.2 < n) :
    ∃ L, topoSequence n es = some L ∧ L.Perm (List.range n) ∧
      (∀ e ∈ es, L.indexOf e.1 < L.indexOf e.2) ∧
      (∀ e ∈ es, e.1 ∈ L.take (L.indexOf e.2)) := by
  obtain ⟨L, hL, hperm, hord⟩ := kahnAux_spec n es hdag n (List.range n)
    (List.nodup_range n) (fun v hv => List.mem_range.mp hv)
    (by simp)
  have hord2 : ∀ e ∈ es, L.indexOf e.1 < L.indexOf e.2 := fun e he =>
    hord e he (List.mem_range.mpr (hbnd e he).1)
      (List.mem_range.mpr (hbnd e he).2)
  refine ⟨L, hL, hperm, hord2, ?_⟩
  intro e he
  apply mem_take_of_indexOf_lt L e.1 (L.indexOf e.2)
  · exact hperm.mem_iff.mpr (List.mem_range.mpr (hbnd e he).1)
  · exact hord2 e he

theorem pyRangeAux_head (f : Nat) (start stop step : Int) :
    (pyRangeAux f start stop step).head? = none ∨
    (pyRangeAux f start stop step).head? = some start := by
  cases f with
  | zero => left; rfl
  | succ g =>
      unfold pyRangeAux
      by_cases h : start < stop
      · right; simp [h]
      · left; simp [h]

theorem pyRangeAux_chain (f : Nat) (start stop step : Int) (hs : 0 < step) :
    List.Chain' (· < ·) (pyRangeAux f start stop step) := by
  induction f generalizing start with
  | zero => simp [pyRangeAux]
  | succ g ih =>
      unfold pyRangeAux
      by_cases h : start < stop
      · simp only [h, if_true]
        rw [List.chain'_cons']
        refine ⟨?_, ih (start + step)⟩
        intro y hy
        rcases pyRangeAux_head g (start + step) stop step with h2 | h2
        · rw [h2] at hy; cases hy
        · rw [h2] at hy
          cases hy
          omega
      · simp [h]

/-- C9: for every integer `arg` with `0 ≤ arg`, `load_data` returns the
string naming the bound variable, and the dataset it binds —
`range(4-arg, 4-arg + 4*(arg+1)^2, arg+1)` — is strictly increasing, hence
sorted, meeting the documented requirement that the dataset be sorted. -/
theorem C9_load_data_sorted (arg : Int) (h : 0 ≤ arg) :
    (load_data arg).1 = "data" ∧
      List.Sorted (· < ·) (load_data arg).2 ∧
      List.Sorted (· ≤ ·) (load_data arg).2 := by
  have hstep : (0 : Int) < arg + 1 := by omega
  have hchain : List.Chain' (· < ·) (load_data arg).2 :=
    pyRangeAux_chain _ _ _ _ hstep
  have hpw : List.Pairwise (· < ·) (load_data arg).2 :=
    List.chain'_iff_pairwise.mp hchain
  exact ⟨rfl, hpw, hpw.imp le_of_lt⟩

theorem C9_load_data_sorted_witness :
    (0 : Int) ≤ 2 ∧ (load_data 2).1 = "data" ∧
      List.Sorted (· < ·) (load_data 2).2 :=
  ⟨by decide, (C9_load_data_sorted 2 (by decide)).1,
    (C9_load_data_sorted 2 (by decide)).2.1⟩

/-- C10: `validate_tree` raises `AssertionError` (returns `false` in this
model) if and only if some node of the graph has a recorded start time
that is not strictly after the recorded completion time of one of its
predecessors; when every node starts strictly after all its predecessors
finish it returns normally — and, being pure in this model, leaves the
graph and the results untouched. -/
theorem C10_validate_tree_iff (nodes : List Nat) (es : List (Nat × Nat))
    (results : Nat → Nat × Nat) :
    validate_tree nodes es results = false ↔
      ∃ node ∈ nodes, ∃ parent ∈ predsOf es node,
        (results node).1 ≤ (results parent).2 := by
  rw [← Bool.not_eq_true]
  simp [validate_tree, List.all_eq_true, not_lt]

theorem C4_random_dag_acyclic_invariant_witness :
    isDagG { nodes := [0, 1], edges := [(0, 1)] } = true ∧
      reachN [(0, 1)] 5 0 0 = false := by
  have h := C4_random_dag_acyclic_invariant 2 2 1
    { nodes := List.range 2, edges := [] } [0, 1]
    { nodes := [0, 1], edges := [(0, 1)] } rfl (by decide)
    (by decide) (by decide) (by decide) (by decide)
  exact ⟨h.1, h.2 5 0⟩

theorem C5_random_dag_amended_witness :
    ({ nodes := [0, 1], edges := [(0, 1)] } : Graph).nodes.length = 2 ∧
      ({ nodes := [0, 1], edges := [(0, 1)] } : Graph).edges.length ≤ 2 ∧
      isDagG { nodes := [0, 1], edges := [(0, 1)] } = true :=
  C5_random_dag_amended 2 2 10 [0, 1, 0, 1]
    { nodes := [0, 1], edges := [(0, 1)] } (by decide) (by decide) (by decide)

theorem C8_no_self_loops_witness :
    ((0, 1) : Nat × Nat).1 ≠ ((0, 1) : Nat × Nat).2 :=
  C8_no_self_loops 2 1 5 [0, 1] { nodes := [0, 1], edges := [(0, 1)] }
    (by decide) (by decide) (0, 1) (by decide)

theorem C2_failure_propagation_witness :
    reachesFrom diamond 1 3 = true ∧
      finalState diamond 1 3 = TState.Unreachable :=
  ⟨by decide, (C2_failure_propagation diamond 1 (by decide)).1 3 (by decide)⟩

theorem C7_resolve_idempotent_amended_witness :
    resolve [(0, 1)] (fun _ => Policy.ALL_SUCCESS) 0
        (resolve [(0, 1)] (fun _ => Policy.ALL_SUCCESS) 0 cexSt) 1 =
      resolve [(0, 1)] (fun _ => Policy.ALL_SUCCESS) 0 cexSt 1 :=
  (C7_resolve_idempotent_amended [(0, 1)]
    (fun _ => Policy.ALL_SUCCESS) 0 cexSt).1 (fun _ => rfl) 1

theorem C6_topological_sequence_witness :
    topoSequence 5 diamond = some [0, 1, 2, 3, 4] ∧
      ([0, 1, 2, 3, 4] : List Nat).indexOf 1 <
        ([0, 1, 2, 3, 4] : List Nat).indexOf 3 := by
  obtain ⟨L, h1, h2, h3, h4⟩ :=
    C6_topological_sequence 5 diamond (by decide) (by decide)
  have hL : L = [0, 1, 2, 3, 4] := by
    have hc : topoSequence 5 diamond = some [0, 1, 2, 3, 4] := by decide
    rw [hc] at h1
    exact (Option.some.injEq _ _).mp h1.symm
  subst hL
  exact ⟨h1, h3 (1, 3) (by decide)⟩

theorem schedInv_init (es : List (Nat × Nat)) : schedInv es initSched := by
  refine ⟨?_, ?_, ?_⟩
  · intro v t h; cases h
  · intro v t h; cases h
  · intro e _ tb h; cases h

theorem schedStep_inv (es : List (Nat × Nat)) (σ σ2 : SchedState)
    (ev : SchedEvent) (hinv : schedInv es σ)
    (hstep : schedStep es σ ev = some σ2) : schedInv es σ2 := by
  obtain ⟨h1, h2, h3⟩ := hinv
  cases ev with
  | start v =>
      simp only [schedStep] at hstep
      by_cases hs : (σ.startedAt v).isSome = true
      · rw [if_pos hs] at hstep; cases hstep
      · rw [if_neg hs] at hstep
        by_cases hall : ((predsOf es v).all
            (fun p => (σ.completedAt p).isSome)) = true
        · rw [if_pos hall] at hstep
          have hσ2 := Option.some.inj hstep
          subst hσ2
          refine ⟨?_, ?_, ?_⟩
          · intro w t h
            dsimp only at h
            by_cases hw : w = v
            · rw [if_pos hw] at h
              have := Option.some.inj h
              dsimp only
              omega
            · rw [if_neg hw] at h
              have := h1 w t h
              dsimp only
              omega
          · intro w t h
            dsimp only at h
            have := h2 w t h
            dsimp only
            omega
          · intro e he tb h
            dsimp only at h
            by_cases hb : e.2 = v
            · rw [if_pos hb] at h
              have htb := Option.some.inj h
              have hmem : e.1 ∈ predsOf es v := by
                apply (mem_predsOf es e.1 v).mpr
                rw [← hb]
                have hpe : (e.1, e.2) = e := Prod.mk.eta
                rw [hpe]
                exact he
              have hsome := List.all_eq_true.mp hall e.1 hmem
              obtain ⟨ta, hta⟩ := Option.isSome_iff_exists.mp hsome
              refine ⟨ta, hta, ?_⟩
              have := h2 e.1 ta hta
              omega
            · rw [if_neg hb] at h
              exact h3 e he tb h
        · rw [if_neg hall] at hstep; cases hstep
  | finish v =>
      simp only [schedStep] at hstep
      by_cases hs : (σ.startedAt v).isSome = true
      · rw [if_pos hs] at hstep
        by_cases hc : (σ.completedAt v).isSome = true
        · rw [if_pos hc] at hstep; cases hstep
        · rw [if_neg hc] at hstep
          have hσ2 := Option.some.inj hstep
          subst hσ2
          refine ⟨?_, ?_, ?_⟩
          · intro w t h
            dsimp only at h
            have := h1 w t h
            dsimp only
            omega
          · intro w t h
            dsimp only at h
            by_cases hw : w = v
            · rw [if_pos hw] at h
              have := Option.some.inj h
              dsimp only
              omega
            · rw [if_neg hw] at h
              have := h2 w t h
              dsimp only
              omega
          · intro e he tb h
            dsimp only at h
            obtain ⟨ta, hta, hlt⟩ := h3 e he tb h
            by_cases ha : e.1 = v
            · exfalso
              rw [ha] at hta
              rw [hta] at hc
              exact hc rfl
            · refine ⟨ta, ?_, hlt⟩
              dsimp only
              rw [if_neg ha]
              exact hta
      · rw [if_neg hs] at hstep; cases hstep

theorem schedRun_inv (es : List (Nat × Nat)) :
    ∀ (evs : List SchedEvent) (σ σ2 : SchedState), schedInv es σ →
      schedRun es σ evs = some σ2 → schedInv es σ2 := by
  intro evs
  induction evs with
  | nil =>
      intro σ σ2 hinv h
      have := Option.some.inj h
      subst this
      exact hinv
  | cons ev evs ih =>
      intro σ σ2 hinv h
      simp only [schedRun] at h
      cases hst : schedStep es σ ev with
      | none => rw [hst] at h; cases h
      | some σ1 =>
          rw [hst] at h
          exact ih σ1 σ2 (schedStep_inv es σ σ1 ev hinv hst) h

/-- C1: for every graph and every schedule — any interleaving of start and
finish events over any nodes that the dispatcher accepts, so any recorded
execution trace — for every edge (a, b), whenever b reaches `Running` the
completion time of a is at most (indeed strictly below) the start time of
b; and once every node of the graph has run, `validate_tree`'s per-edge
check (each node starts strictly after every predecessor's completion)
passes for every node/predecessor pair. -/
theorem C1_trace_dependency_order (es : List (Nat × Nat))
    (evs : List SchedEvent) (σ : SchedState)
    (hrun : schedRun es initSched evs = some σ) :
    (∀ e ∈ es, ∀ tb, σ.startedAt e.2 = some tb →
      ∃ ta, σ.completedAt e.1 = some ta ∧ ta ≤ tb) ∧
    (∀ e ∈ es, ∀ tb, σ.startedAt e.2 = some tb →
      ∃ ta, σ.completedAt e.1 = some ta ∧ ta < tb) ∧
    (∀ nodes : List Nat,
      (∀ v ∈ nodes, (σ.startedAt v).isSome = true ∧
        (σ.completedAt v).isSome = true) →
      validate_tree nodes es
        (fun v => ((σ.startedAt v).getD 0, (σ.completedAt v).getD 0)) =
          true) := by
  obtain ⟨h1, h2, h3⟩ :=
    schedRun_inv es evs initSched σ (schedInv_init es) hrun
  refine ⟨?_, h3, ?_⟩
  · intro e he tb h
    obtain ⟨ta, hta, hlt⟩ := h3 e he tb h
    exact ⟨ta, hta, Nat.le_of_lt hlt⟩
  · intro nodes hcompl
    unfold validate_tree
    apply List.all_eq_true.mpr
    intro node hnode
    apply List.all_eq_true.mpr
    intro parent hparent
    have hedge : (parent, node) ∈ es := (mem_predsOf es parent node).mp hparent
    obtain ⟨tb, htb⟩ := Option.isSome_iff_exists.mp (hcompl node hnode).1
    obtain ⟨ta, hta, hlt⟩ := h3 (parent, node) hedge tb htb
    simp only [decide_eq_true_eq]
    rw [hta, htb]
    simpa using hlt

theorem C1_trace_dependency_order_witness :
    demoFinal.startedAt 2 = some 2 ∧ demoFinal.startedAt 1 = some 3 ∧
      validate_tree (List.range 5) diamond
        (fun v => ((demoFinal.startedAt v).getD 0,
          (demoFinal.completedAt v).getD 0)) = true := by
  have h := C1_trace_dependency_order diamond demoEvents demoFinal rfl
  exact ⟨by decide, by decide, h.2.2 (List.range 5) (by decide)⟩
